import Mathlib

/-
Verification development for the tmpl template manager (src/tmpl.cpp).

Strings manipulated by the program are modelled as lists of characters
(List Char); file contents likewise.  The tag sidecar codec (read_tags,
write_tags), the tag mutation operations, the recursive copy used by the
make command, and the store level operations (save_template, make_project,
list_templates) are embedded below, each translated from the C++ source.
-/

set_option maxHeartbeats 1000000

namespace Tmpl

/-- C locale isspace on the character set the program manipulates:
space, tab, newline, vertical tab, form feed, carriage return.
This models the ::isspace predicate used at tmpl.cpp line 89 and 340. -/
def isspace (c : Char) : Bool :=
  c == ' ' || c == '\t' || c == '\n' || c == '\x0B' || c == '\x0C' || c == '\r'

/-- All segments of a character list between occurrences of the delimiter d,
including empty segments; never returns the empty list. -/
def splitAll (d : Char) : List Char → List (List Char)
  | [] => [[]]
  | c :: cs =>
    if c = d then [] :: splitAll d cs
    else
      match splitAll d cs with
      | [] => [[c]]
      | t :: ts => (c :: t) :: ts

/-- The token sequence produced by a while loop of std getline with
delimiter d over a string stream holding l: the empty input produces no
token, and a final trailing delimiter does not produce a trailing empty
token (getline at end of input extracts nothing and fails). -/
def cppSplit (d : Char) (l : List Char) : List (List Char) :=
  if l.isEmpty then []
  else if (splitAll d l).getLast? = some [] then (splitAll d l).dropLast
  else splitAll d l

/-- The five characters of the line marker recognized by read_tags
(tmpl.cpp line 84) and emitted by write_tags (line 107). -/
def tagsLabel : List Char := ['T', 'a', 'g', 's', ':']

/-- Processing of a single sidecar line by read_tags (tmpl.cpp lines 84-92):
if the line is non-empty and its first five characters are the tags label,
the remainder is split on commas and every whitespace character is removed
from each token; every token is kept, including empty ones.  Other lines
contribute nothing. -/
def tagsOfLine (l : List Char) : List (List Char) :=
  if l ≠ [] ∧ l.take 5 = tagsLabel then
    (cppSplit ',' (l.drop 5)).map (fun t => t.filter (fun c => !(isspace c)))
  else []

/-- read_tags (tmpl.cpp lines 78-96) on the content of a sidecar file:
the file is read line by line and the tokens of every recognized line are
concatenated in order.  A missing sidecar is modelled by empty content. -/
def read_tags (content : List Char) : List (List Char) :=
  ((cppSplit '\n' content).map tagsOfLine).flatten

/-- The comma separated body written by the loop of write_tags
(tmpl.cpp lines 108-112): each tag followed by a comma unless it is last. -/
def write_body : List (List Char) → List Char
  | [] => []
  | [t] => t
  | t :: t2 :: rest => t ++ ',' :: write_body (t2 :: rest)

/-- write_tags (tmpl.cpp lines 104-115): the sidecar is truncated; nothing
is written for an empty tag list, otherwise one line holding the tags label,
the comma separated tags, and a newline from std endl. -/
def write_tags (tags : List (List Char)) : List Char :=
  if tags.isEmpty then [] else tagsLabel ++ write_body tags ++ ['\n']

/-- The loop of add_tags_to_template (tmpl.cpp lines 282-286): each argument
tag not already present is appended to the existing list, in argument
order. -/
def add_new_tags (existing ts : List (List Char)) : List (List Char) :=
  ts.foldl (fun acc t => if t ∈ acc then acc else acc ++ [t]) existing

/-- The loop of remove_tags_from_template (tmpl.cpp lines 307-309): the
erase remove idiom drops every occurrence of each argument tag. -/
def remove_tags (existing ts : List (List Char)) : List (List Char) :=
  ts.foldl (fun acc t => acc.filter (fun x => !(x == t))) existing

/-- The sidecar rewrite performed by add_tags_to_template
(tmpl.cpp lines 273-290) on an existing template, expressed on the sidecar
content: read the current tags, append the new ones, write back. -/
def add_tags_to_template (sidecar : List Char) (ts : List (List Char)) : List Char :=
  write_tags (add_new_tags (read_tags sidecar) ts)

/-- The sidecar rewrite performed by remove_tags_from_template
(tmpl.cpp lines 298-313) on an existing template, expressed on the sidecar
content: read the current tags, drop the given ones, write back. -/
def remove_tags_from_template (sidecar : List Char) (ts : List (List Char)) : List Char :=
  write_tags (remove_tags (read_tags sidecar) ts)

/-- A tag as produced by the command line tag parser parse_tags
(tmpl.cpp lines 335-346): non-empty, free of whitespace, and free of
commas. -/
def validTag (t : List Char) : Prop :=
  t ≠ [] ∧ ∀ c ∈ t, isspace c = false ∧ c ≠ ','

mutual
/-- A filesystem tree: a regular file with its content, or a directory
with a sequence of named children.  Other entry kinds (symlinks, specials)
are outside the claims considered here; directory_iterator visits entries
in the order of the sequence. -/
inductive FsTree where
  | file : List Char → FsTree
  | dir : FsEntries → FsTree
/-- The named children of a directory, in iteration order. -/
inductive FsEntries where
  | nil : FsEntries
  | cons : String → FsTree → FsEntries → FsEntries
end

/-- The fixed name of the sidecar metadata file. -/
def metaName : String := ".meta"

/-- First entry of a directory listing with the given name, the way a path
component is resolved. -/
def findEntry : FsEntries → String → Option FsTree
  | FsEntries.nil, _ => none
  | FsEntries.cons m t rest, n => if m = n then some t else findEntry rest n

/-- Whether a directory listing has an entry of the given name; this is
fs exists on the corresponding path. -/
def hasName : FsEntries → String → Bool
  | FsEntries.nil, _ => false
  | FsEntries.cons m _ rest, n => m = n || hasName rest n

/-- Resolution of a relative path inside a tree. -/
def lookupPath : FsTree → List String → Option FsTree
  | t, [] => some t
  | FsTree.file _, _ :: _ => none
  | FsTree.dir cs, n :: p =>
    match findEntry cs n with
    | some t => lookupPath t p
    | none => none

/-- The body of copy_template (tmpl.cpp lines 123-139) on a directory
listing: directories are copied by recursion, regular files are copied
unless named .meta (the file named .meta is skipped at every level, the
same test being applied in every recursive call). -/
def copy_entries : FsEntries → FsEntries
  | FsEntries.nil => FsEntries.nil
  | FsEntries.cons n (FsTree.file c) rest =>
    if n = metaName then copy_entries rest
    else FsEntries.cons n (FsTree.file c) (copy_entries rest)
  | FsEntries.cons n (FsTree.dir cs) rest =>
    FsEntries.cons n (FsTree.dir (copy_entries cs)) (copy_entries rest)

/-- copy_template (tmpl.cpp lines 123-139) on the template tree: the
destination receives the filtered copy of the source directory. -/
def copy_template : FsTree → FsTree
  | FsTree.file c => FsTree.file c
  | FsTree.dir cs => FsTree.dir (copy_entries cs)

/-- Well-formedness of a directory listing as a real filesystem provides
it: sibling names are distinct at every level. -/
def nodupEntries : FsEntries → Bool
  | FsEntries.nil => true
  | FsEntries.cons n (FsTree.file _) rest => !(hasName rest n) && nodupEntries rest
  | FsEntries.cons n (FsTree.dir cs) rest =>
    !(hasName rest n) && nodupEntries cs && nodupEntries rest

/-- Well-formedness of a tree: sibling names distinct at every level. -/
def nodupTree : FsTree → Bool
  | FsTree.file _ => true
  | FsTree.dir cs => nodupEntries cs

/-- Outcome of save_template: the collision diagnostic, the uncaught
filesystem exception raised by fs copy when the source is missing, or
success. -/
inductive SaveOutcome where
  | alreadyExists
  | copyFailed
  | saved

/-- The template store: the named immediate children of the templates
directory.  No recursion into the trees happens at this level, so a plain
association list is used. -/
abbrev Store := List (String × FsTree)

/-- Lookup of a template by name in the store. -/
def findTemplate : Store → String → Option FsTree
  | [], _ => none
  | (m, t) :: rest, n => if m = n then some t else findTemplate rest n

/-- Whether the store has an entry of the given name; this is the
fs exists check of save_template (tmpl.cpp line 150). -/
def hasTemplate : Store → String → Bool
  | [], _ => false
  | (m, _) :: rest, n => m = n || hasTemplate rest n

/-- Replacement or creation of a named entry in a directory listing, the
effect of opening an ofstream on that path. -/
def setEntry : FsEntries → String → FsTree → FsEntries
  | FsEntries.nil, n, v => FsEntries.cons n v FsEntries.nil
  | FsEntries.cons m t rest, n, v =>
    if m = n then FsEntries.cons n v rest else FsEntries.cons m t (setEntry rest n v)

/-- Writing the sidecar at the root of a template tree, the effect of
write_tags on the template directory. -/
def write_tags_into (t : FsTree) (tags : List (List Char)) : FsTree :=
  match t with
  | FsTree.file c => FsTree.file c
  | FsTree.dir cs => FsTree.dir (setEntry cs metaName (FsTree.file (write_tags tags)))

/-- The empty directory created by create_directories. -/
def emptyDir : FsTree := FsTree.dir FsEntries.nil

/-- save_template (tmpl.cpp lines 148-174) on the store state.  The store
is the list of entries of the templates directory; src is the source
directory tree when it exists.  On a name collision the function returns
before any mutation.  Otherwise create_directories makes the template
directory first; when the source is missing the subsequent fs copy throws,
leaving the fresh empty directory behind (outcome copyFailed).  On success
the source tree is copied in full (the recursive file loop at lines
159-167 applies no filter), then the sidecar is written when tags are
non-empty. -/
def save_template (st : Store) (name : String)
    (src : Option FsTree) (tags : List (List Char)) :
    Store × SaveOutcome :=
  if hasTemplate st name then (st, SaveOutcome.alreadyExists)
  else
    match src with
    | none => (st ++ [(name, emptyDir)], SaveOutcome.copyFailed)
    | some t =>
      let final := if tags.isEmpty then t else write_tags_into t tags
      (st ++ [(name, final)], SaveOutcome.saved)

/-- Outcome of make_project (tmpl.cpp lines 182-205): the store directory
is missing, the template is missing, the destination already exists, or
the destination tree was created. -/
inductive MakeOutcome where
  | noStore
  | noTemplate
  | destinationExists
  | made : FsTree → MakeOutcome

/-- make_project (tmpl.cpp lines 182-205): guard on the store directory,
on the template, and on a pre-existing destination, then copy the template
tree with copy_template.  The store argument is none when the templates
directory does not exist; dest_exists tells whether the destination path
already exists. -/
def make_project (store : Option Store) (name : String)
    (dest_exists : Bool) : MakeOutcome :=
  match store with
  | none => MakeOutcome.noStore
  | some st =>
    match findTemplate st name with
    | none => MakeOutcome.noTemplate
    | some t =>
      if dest_exists then MakeOutcome.destinationExists
      else MakeOutcome.made (copy_template t)

/-- The tag list of a template directory listing: read_tags on the content
of the root sidecar file; a missing sidecar, or one that is a directory
and hence cannot be opened, reads as empty content. -/
def template_tags (cs : FsEntries) : List (List Char) :=
  match findEntry cs metaName with
  | some (FsTree.file c) => read_tags c
  | _ => []

/-- The filter test of list_templates (tmpl.cpp lines 224-235): with an
empty filter every template is shown, otherwise the template is shown when
some filter tag occurs among its tags. -/
def show_template (filter_tags tags : List (List Char)) : Bool :=
  if filter_tags.isEmpty then true
  else filter_tags.any (fun t => tags.contains t)

/-- list_templates (tmpl.cpp lines 212-251): nothing is listed for a
missing or empty store; otherwise every directory entry of the store whose
tags pass the filter test is listed with its tags; non-directory entries
are skipped. -/
def list_templates (store : Store)
    (filter_tags : List (List Char)) : List (String × List (List Char)) :=
  if store.isEmpty then []
  else
    store.filterMap (fun e =>
      match e with
      | (_, FsTree.file _) => none
      | (n, FsTree.dir cs) =>
        let tags := template_tags cs
        if show_template filter_tags tags then some (n, tags) else none)

/-! ### Lemmas about the splitting primitives -/

theorem splitAll_ne_nil (d : Char) (l : List Char) : splitAll d l ≠ [] := by
  cases l with
  | nil => simp [splitAll]
  | cons c cs =>
    simp only [splitAll]
    split
    · simp
    · split <;> simp

theorem splitAll_no_delim (d : Char) (s : List Char) (h : d ∉ s) :
    splitAll d s = [s] := by
  induction s with
  | nil => rfl
  | cons c cs ih =>
    simp only [List.mem_cons, not_or] at h
    have hne : ¬(c = d) := fun hcd => h.1 hcd.symm
    simp only [splitAll, if_neg hne]
    rw [ih h.2]

theorem splitAll_append_delim (d : Char) (s rest : List Char) (h : d ∉ s) :
    splitAll d (s ++ d :: rest) = s :: splitAll d rest := by
  induction s with
  | nil => simp [splitAll]
  | cons c cs ih =>
    simp only [List.mem_cons, not_or] at h
    have hne : ¬(c = d) := fun hcd => h.1 hcd.symm
    simp only [List.cons_append, splitAll, if_neg hne, List.append_eq]
    rw [ih h.2]

theorem mem_splitAll_no_delim (d : Char) (l t : List Char)
    (ht : t ∈ splitAll d l) : d ∉ t := by
  induction l generalizing t with
  | nil =>
    simp only [splitAll, List.mem_singleton] at ht
    subst ht; simp
  | cons c cs ih =>
    by_cases hc : c = d
    · simp only [splitAll, if_pos hc, List.mem_cons] at ht
      rcases ht with rfl | ht
      · simp
      · exact ih t ht
    · cases h' : splitAll d cs with
      | nil => exact absurd h' (splitAll_ne_nil d cs)
      | cons t' ts' =>
        simp only [splitAll, if_neg hc, h', List.mem_cons] at ht
        rcases ht with rfl | ht
        · intro hd
          rcases List.mem_cons.1 hd with hd1 | hd2
          · exact hc hd1.symm
          · exact ih t' (by rw [h']; exact List.mem_cons_self _ _) hd2
        · exact ih t (by rw [h']; exact List.mem_cons_of_mem _ ht)

theorem mem_cppSplit_sub (d : Char) (l t : List Char)
    (ht : t ∈ cppSplit d l) : t ∈ splitAll d l := by
  unfold cppSplit at ht
  split at ht
  · simp at ht
  · split at ht
    · exact List.dropLast_subset _ ht
    · exact ht

theorem cppSplit_append_delim_nil (d : Char) (s : List Char)
    (h : d ∉ s) : cppSplit d (s ++ [d]) = [s] := by
  have h1 : splitAll d (s ++ d :: []) = s :: splitAll d [] :=
    splitAll_append_delim d s [] h
  unfold cppSplit
  rw [if_neg (by simp)]
  rw [show (s ++ [d]) = s ++ d :: [] from rfl, h1]
  simp [splitAll]

/-! ### Lemmas about the tag codec -/

theorem read_tags_single_line (s : List Char) (h : '\n' ∉ s) :
    read_tags (s ++ ['\n']) = tagsOfLine s := by
  unfold read_tags
  rw [cppSplit_append_delim_nil '\n' s h]
  simp

theorem tagsOfLine_label (r : List Char) :
    tagsOfLine (tagsLabel ++ r) =
      (cppSplit ',' r).map (fun t => t.filter (fun c => !(isspace c))) := by
  have h1 : (tagsLabel ++ r).take 5 = tagsLabel := rfl
  have h2 : (tagsLabel ++ r).drop 5 = r := rfl
  unfold tagsOfLine
  rw [if_pos ⟨by simp [tagsLabel], h1⟩, h2]

theorem mem_write_body (L : List (List Char)) (c : Char)
    (hc : c ∈ write_body L) : c = ',' ∨ ∃ t ∈ L, c ∈ t := by
  induction L with
  | nil => simp [write_body] at hc
  | cons t rest ih =>
    cases rest with
    | nil =>
      simp only [write_body] at hc
      exact Or.inr ⟨t, by simp, hc⟩
    | cons t2 r2 =>
      simp only [write_body, List.mem_append, List.mem_cons] at hc
      rcases hc with h | h | h
      · exact Or.inr ⟨t, by simp, h⟩
      · exact Or.inl h
      · rcases ih h with h' | ⟨u, hu, hcu⟩
        · exact Or.inl h'
        · exact Or.inr ⟨u, List.mem_cons_of_mem _ hu, hcu⟩

theorem write_body_ne_nil (t : List Char) (rest : List (List Char))
    (ht : t ≠ []) : write_body (t :: rest) ≠ [] := by
  cases rest with
  | nil => simpa [write_body] using ht
  | cons t2 r2 => simp [write_body]

theorem splitAll_write_body (L : List (List Char)) (hL : L ≠ [])
    (h : ∀ t ∈ L, ',' ∉ t) : splitAll ',' (write_body L) = L := by
  induction L with
  | nil => exact absurd rfl hL
  | cons t rest ih =>
    cases rest with
    | nil => simpa [write_body] using splitAll_no_delim ',' t (h t (by simp))
    | cons t2 r2 =>
      rw [show write_body (t :: t2 :: r2) = t ++ ',' :: write_body (t2 :: r2) from rfl,
        splitAll_append_delim ',' t _ (h t (by simp))]
      rw [ih (by simp) (fun u hu => h u (List.mem_cons_of_mem _ hu))]

theorem cppSplit_write_body (L : List (List Char)) (hL : L ≠ [])
    (h : ∀ t ∈ L, t ≠ [] ∧ ',' ∉ t) : cppSplit ',' (write_body L) = L := by
  have hs := splitAll_write_body L hL (fun t ht => (h t ht).2)
  have hlast : L.getLast? ≠ some ([] : List Char) := by
    intro heq
    obtain ⟨hne, hx⟩ := List.mem_getLast?_eq_getLast (Option.mem_def.2 heq)
    have hmem : ([] : List Char) ∈ L := hx ▸ List.getLast_mem hne
    exact (h [] hmem).1 rfl
  unfold cppSplit
  rw [if_neg ?hne]
  case hne =>
    obtain ⟨t, rest, rfl⟩ := List.exists_cons_of_ne_nil hL
    simpa using write_body_ne_nil t rest (h t (by simp)).1
  rw [hs, if_neg hlast]

theorem newline_not_mem_write_tags_body (L : List (List Char))
    (h : ∀ t ∈ L, ∀ c ∈ t, isspace c = false) :
    '\n' ∉ tagsLabel ++ write_body L := by
  intro hmem
  rcases List.mem_append.1 hmem with h1 | h2
  · simp [tagsLabel] at h1
  · rcases mem_write_body L '\n' h2 with hc | ⟨t, ht, hct⟩
    · simp at hc
    · have := h t ht '\n' hct
      simp [isspace] at this

/-- The round trip at the heart of the codec: a list of non-empty,
whitespace-free, comma-free tags is read back exactly as written. -/
theorem read_write_tags (L : List (List Char)) (h : ∀ t ∈ L, validTag t) :
    read_tags (write_tags L) = L := by
  cases L with
  | nil => rfl
  | cons t rest =>
    have hvalid : ∀ u ∈ t :: rest, u ≠ [] ∧ ',' ∉ u := by
      intro u hu
      obtain ⟨hne, hchar⟩ := h u hu
      exact ⟨hne, fun hcm => (hchar ',' hcm).2 rfl⟩
    have hws : ∀ u ∈ t :: rest, ∀ c ∈ u, isspace c = false :=
      fun u hu c hc => ((h u hu).2 c hc).1
    have hwt : write_tags (t :: rest) =
        (tagsLabel ++ write_body (t :: rest)) ++ ['\n'] := by
      simp [write_tags]
    rw [hwt, read_tags_single_line _ (newline_not_mem_write_tags_body _ hws),
      tagsOfLine_label,
      cppSplit_write_body _ (by simp) hvalid]
    have : ∀ u ∈ t :: rest, u.filter (fun c => !(isspace c)) = u := by
      intro u hu
      rw [List.filter_eq_self]
      intro c hc
      simp [hws u hu c hc]
    calc (t :: rest).map (fun u => u.filter (fun c => !(isspace c)))
        = (t :: rest).map id := List.map_congr_left this
      _ = t :: rest := List.map_id _

/-- Every token returned by read_tags is whitespace-free and comma-free:
whitespace is removed explicitly, and commas are the split delimiters. -/
theorem mem_read_tags_clean (s tok : List Char) (h : tok ∈ read_tags s) :
    (∀ c ∈ tok, isspace c = false) ∧ ',' ∉ tok := by
  unfold read_tags at h
  rw [List.mem_flatten] at h
  obtain ⟨ts, hts, htok⟩ := h
  rw [List.mem_map] at hts
  obtain ⟨line, _, rfl⟩ := hts
  unfold tagsOfLine at htok
  split at htok
  · rw [List.mem_map] at htok
    obtain ⟨t0, ht0, rfl⟩ := htok
    constructor
    · intro c hc
      have := (List.mem_filter.1 hc).2
      simpa using this
    · intro hcm
      have h1 : ',' ∈ t0 := (List.mem_filter.1 hcm).1
      exact mem_splitAll_no_delim ',' _ t0 (mem_cppSplit_sub _ _ _ ht0) h1
  · simp at htok

/-! ### Lemmas about the tag mutation loops -/

theorem add_new_tags_nil (existing : List (List Char)) :
    add_new_tags existing [] = existing := rfl

theorem add_new_tags_cons (existing : List (List Char)) (t : List Char)
    (ts : List (List Char)) :
    add_new_tags existing (t :: ts) =
      add_new_tags (if t ∈ existing then existing else existing ++ [t]) ts := rfl

theorem mem_add_new_tags (existing ts : List (List Char)) (x : List Char)
    (h : x ∈ add_new_tags existing ts) : x ∈ existing ∨ x ∈ ts := by
  induction ts generalizing existing with
  | nil => exact Or.inl h
  | cons t ts' ih =>
    rw [add_new_tags_cons] at h
    rcases ih _ h with h' | h'
    · by_cases hmem : t ∈ existing
      · rw [if_pos hmem] at h'
        exact Or.inl h'
      · rw [if_neg hmem] at h'
        rcases List.mem_append.1 h' with h'' | h''
        · exact Or.inl h''
        · simp at h''
          subst h''
          exact Or.inr (by simp)
    · exact Or.inr (List.mem_cons_of_mem _ h')

theorem mem_add_new_tags_left (existing ts : List (List Char)) (x : List Char)
    (h : x ∈ existing) : x ∈ add_new_tags existing ts := by
  induction ts generalizing existing with
  | nil => exact h
  | cons t ts' ih =>
    rw [add_new_tags_cons]
    apply ih
    split
    · exact h
    · exact List.mem_append_left _ h

theorem mem_add_new_tags_arg (existing ts : List (List Char)) (x : List Char)
    (h : x ∈ ts) : x ∈ add_new_tags existing ts := by
  induction ts generalizing existing with
  | nil => simp at h
  | cons t ts' ih =>
    rw [add_new_tags_cons]
    rcases List.mem_cons.1 h with rfl | h'
    · apply mem_add_new_tags_left
      split
      · assumption
      · exact List.mem_append_right _ (by simp)
    · exact ih _ h'

theorem add_new_tags_eq_self (existing ts : List (List Char))
    (h : ∀ t ∈ ts, t ∈ existing) : add_new_tags existing ts = existing := by
  induction ts with
  | nil => rfl
  | cons t ts' ih =>
    rw [add_new_tags_cons, if_pos (h t (by simp))]
    exact ih (fun u hu => h u (List.mem_cons_of_mem _ hu))

theorem remove_tags_nil (existing : List (List Char)) :
    remove_tags existing [] = existing := rfl

theorem remove_tags_cons (existing : List (List Char)) (t : List Char)
    (ts : List (List Char)) :
    remove_tags existing (t :: ts) =
      remove_tags (existing.filter (fun x => !(x == t))) ts := rfl

theorem remove_tags_subset (existing ts : List (List Char)) (x : List Char)
    (h : x ∈ remove_tags existing ts) : x ∈ existing := by
  induction ts generalizing existing with
  | nil => exact h
  | cons t ts' ih =>
    rw [remove_tags_cons] at h
    exact (List.mem_filter.1 (ih _ h)).1

theorem remove_tags_eq_self (existing ts : List (List Char))
    (h : ∀ t ∈ ts, t ∉ existing) : remove_tags existing ts = existing := by
  induction ts with
  | nil => rfl
  | cons t ts' ih =>
    have hfix : existing.filter (fun x => !(x == t)) = existing := by
      rw [List.filter_eq_self]
      intro a ha
      simp only [Bool.not_eq_true', beq_eq_false_iff_ne, ne_eq]
      intro heq
      exact h t (by simp) (heq ▸ ha)
    rw [remove_tags_cons, hfix]
    exact ih (fun u hu => h u (List.mem_cons_of_mem _ hu))

/-! ### Lemmas about the filesystem model -/

theorem findEntry_none_of_hasName :
    ∀ (cs : FsEntries) (n : String), hasName cs n = false → findEntry cs n = none
  | FsEntries.nil, _, _ => rfl
  | FsEntries.cons m t rest, n, h => by
    simp only [hasName, Bool.or_eq_false_iff, decide_eq_false_iff_not] at h
    simp only [findEntry, if_neg h.1]
    exact findEntry_none_of_hasName rest n h.2

theorem hasTemplate_append (l1 l2 : Store) (n : String) :
    hasTemplate (l1 ++ l2) n = (hasTemplate l1 n || hasTemplate l2 n) := by
  induction l1 with
  | nil => simp [hasTemplate]
  | cons e rest ih =>
    obtain ⟨m, t⟩ := e
    simp only [List.cons_append, hasTemplate, List.append_eq, ih, Bool.or_assoc]

theorem nodupEntries_cons_file (m : String) (c : List Char)
    (rest : FsEntries)
    (h : nodupEntries (FsEntries.cons m (FsTree.file c) rest) = true) :
    hasName rest m = false ∧ nodupEntries rest = true := by
  simp only [nodupEntries, Bool.and_eq_true, Bool.not_eq_true'] at h
  exact h

theorem nodupEntries_cons_dir (m : String) (cs : FsEntries)
    (rest : FsEntries)
    (h : nodupEntries (FsEntries.cons m (FsTree.dir cs) rest) = true) :
    hasName rest m = false ∧ nodupEntries cs = true ∧ nodupEntries rest = true := by
  simp only [nodupEntries, Bool.and_eq_true, Bool.not_eq_true'] at h
  exact ⟨h.1.1, h.1.2, h.2⟩

/-- Effect of the copy filter on name resolution in a directory with
distinct sibling names: regular files named .meta disappear, other regular
files survive unchanged, subdirectories survive with their listing copied
recursively. -/
theorem findEntry_copy_entries :
    ∀ (cs : FsEntries) (n : String), nodupEntries cs = true →
    findEntry (copy_entries cs) n =
      match findEntry cs n with
      | none => none
      | some (FsTree.file c) => if n = metaName then none else some (FsTree.file c)
      | some (FsTree.dir ds) => some (FsTree.dir (copy_entries ds))
  | FsEntries.nil, n, _ => by simp [copy_entries, findEntry]
  | FsEntries.cons m (FsTree.file c) rest, n, h => by
    obtain ⟨hmiss, hrest⟩ := nodupEntries_cons_file m c rest h
    by_cases hm : m = metaName
    · have hcopy : copy_entries (FsEntries.cons m (FsTree.file c) rest) =
          copy_entries rest := by
        simp [copy_entries, hm]
      rw [hcopy]
      by_cases hn : m = n
      · have hfind : findEntry (FsEntries.cons m (FsTree.file c) rest) n =
            some (FsTree.file c) := by
          simp [findEntry, hn]
        rw [hfind, findEntry_copy_entries rest n hrest,
          findEntry_none_of_hasName rest n (by rw [← hn]; exact hmiss)]
        simp [← hn, hm]
      · have hfind : findEntry (FsEntries.cons m (FsTree.file c) rest) n =
            findEntry rest n := by
          simp [findEntry, hn]
        rw [hfind]
        exact findEntry_copy_entries rest n hrest
    · have hcopy : copy_entries (FsEntries.cons m (FsTree.file c) rest) =
          FsEntries.cons m (FsTree.file c) (copy_entries rest) := by
        simp [copy_entries, hm]
      rw [hcopy]
      by_cases hn : m = n
      · have hnm : ¬(n = metaName) := fun hc => hm (hn.trans hc)
        simp [findEntry, hn, hnm]
      · simp only [findEntry, if_neg hn]
        exact findEntry_copy_entries rest n hrest
  | FsEntries.cons m (FsTree.dir ds) rest, n, h => by
    obtain ⟨hmiss, hds, hrest⟩ := nodupEntries_cons_dir m ds rest h
    have hcopy : copy_entries (FsEntries.cons m (FsTree.dir ds) rest) =
        FsEntries.cons m (FsTree.dir (copy_entries ds)) (copy_entries rest) := by
      simp [copy_entries]
    rw [hcopy]
    by_cases hn : m = n
    · simp [findEntry, hn]
    · simp only [findEntry, if_neg hn]
      exact findEntry_copy_entries rest n hrest

theorem nodup_findEntry_dir :
    ∀ (cs : FsEntries) (n : String) (ds : FsEntries), nodupEntries cs = true →
      findEntry cs n = some (FsTree.dir ds) → nodupEntries ds = true
  | FsEntries.nil, n, ds, _, hf => by simp [findEntry] at hf
  | FsEntries.cons m t rest, n, ds, h, hf => by
    by_cases hn : m = n
    · cases t with
      | file c =>
        simp only [findEntry, if_pos hn] at hf
        simp at hf
      | dir ds' =>
        simp only [findEntry, if_pos hn, Option.some_inj] at hf
        obtain ⟨-, hds', -⟩ := nodupEntries_cons_dir m ds' rest h
        cases hf
        exact hds'
    · simp only [findEntry, if_neg hn] at hf
      cases t with
      | file c =>
        exact nodup_findEntry_dir rest n ds (nodupEntries_cons_file m c rest h).2 hf
      | dir ds' =>
        exact nodup_findEntry_dir rest n ds (nodupEntries_cons_dir m ds' rest h).2.2 hf

/-- Path-level behaviour of copy_template on a well-formed tree: every
source file whose name is .meta is absent from the copy, and every other
source file is present in the copy with identical content. -/
theorem lookupPath_copy_template (p : List String) (t : FsTree) (c : List Char)
    (hnd : nodupTree t = true) (h : lookupPath t p = some (FsTree.file c)) :
    lookupPath (copy_template t) p =
      (if p.getLast? = some metaName then none else some (FsTree.file c)) := by
  induction p generalizing t with
  | nil =>
    simp only [lookupPath, Option.some_inj] at h
    subst h
    simp [copy_template, lookupPath]
  | cons n p' ih =>
    cases t with
    | file c0 => simp [lookupPath] at h
    | dir cs =>
      have hnd' : nodupEntries cs = true := hnd
      simp only [lookupPath] at h
      cases hf : findEntry cs n with
      | none => rw [hf] at h; simp at h
      | some t' =>
        rw [hf] at h
        have hmaster := findEntry_copy_entries cs n hnd'
        rw [hf] at hmaster
        cases t' with
        | file c' =>
          cases p' with
          | nil =>
            simp only [lookupPath, Option.some_inj] at h
            cases h
            have hmaster' : findEntry (copy_entries cs) n =
                (if n = metaName then none else some (FsTree.file c)) := hmaster
            by_cases hn : n = metaName
            · rw [if_pos hn] at hmaster'
              rw [hn] at hmaster'
              simp [copy_template, lookupPath, hmaster', hn]
            · rw [if_neg hn] at hmaster'
              simp [copy_template, lookupPath, hmaster', hn]
          | cons x xs => simp [lookupPath] at h
        | dir ds =>
          cases p' with
          | nil => simp [lookupPath] at h
          | cons x xs =>
            have hds : nodupEntries ds = true := nodup_findEntry_dir cs n ds hnd' hf
            have ihres := ih (FsTree.dir ds) hds h
            have hmaster' : findEntry (copy_entries cs) n =
                some (FsTree.dir (copy_entries ds)) := hmaster
            simp only [copy_template, lookupPath, hmaster']
            rw [List.getLast?_cons_cons]
            exact ihres

/-! ### Shape of the sidecar written by the tag mutations -/

theorem write_tags_shape (L : List (List Char))
    (h : ∀ t ∈ L, ∀ c ∈ t, isspace c = false) :
    write_tags L = [] ∨
      ∃ body, write_tags L = tagsLabel ++ body ++ ['\n'] ∧ '\n' ∉ body := by
  cases L with
  | nil => exact Or.inl rfl
  | cons t rest =>
    right
    refine ⟨write_body (t :: rest), by simp [write_tags], ?_⟩
    intro hm
    rcases mem_write_body _ _ hm with hc | ⟨u, hu, hcu⟩
    · simp at hc
    · have := h u hu '\n' hcu
      simp [isspace] at this

theorem validTag_of_read_mem (s tok : List Char)
    (hwf : ∀ u ∈ read_tags s, u ≠ []) (h : tok ∈ read_tags s) : validTag tok := by
  obtain ⟨hws, hcm⟩ := mem_read_tags_clean s tok h
  exact ⟨hwf tok h, fun c hc => ⟨hws c hc, fun hcc => hcm (hcc ▸ hc)⟩⟩

/-! ### Concrete data used by witnesses and counterexamples -/

/-- A template holding one nested sidecar file sub/.meta with content x. -/
def tNested : FsTree :=
  FsTree.dir (FsEntries.cons ("sub")
    (FsTree.dir (FsEntries.cons metaName (FsTree.file ['x']) FsEntries.nil))
    FsEntries.nil)

/-- A store holding the single template gamma with a nested sidecar. -/
def storeNested : Store := [("gamma", tNested)]

/-- A template holding a root sidecar and one payload file. -/
def tRootMeta : FsTree :=
  FsTree.dir (FsEntries.cons metaName
    (FsTree.file ['T', 'a', 'g', 's', ':', 'x', '\n'])
    (FsEntries.cons ("main.c") (FsTree.file ['m']) FsEntries.nil))

/-- A store holding the single template delta with a root sidecar. -/
def storeRootMeta : Store := [("delta", tRootMeta)]

/-- A sidecar holding the single tag a. -/
def sidecarA : List Char := ['T', 'a', 'g', 's', ':', 'a', '\n']

/-- A sidecar holding a junk line followed by the tag line for a. -/
def sidecarJunkA : List Char :=
  ['h', 'i', '\n', 'T', 'a', 'g', 's', ':', 'a', '\n']

/-! ### The claims -/

/-- C1, counterexample: the template gamma holds the nested file sub/.meta
with content x; make succeeds, yet sub/.meta does not exist at the
destination, contradicting the claim that nested .meta files are copied
normally.  copy_template skips every regular file named .meta at every
depth, not only at the template root. -/
theorem c1_nested_meta_counterexample :
    make_project (some storeNested) ("gamma") false =
      MakeOutcome.made (copy_template tNested) ∧
    lookupPath tNested ["sub", metaName] = some (FsTree.file ['x']) ∧
    lookupPath (copy_template tNested) ["sub", metaName] = none :=
  ⟨rfl, rfl, rfl⟩

/-- C1 (amended): after a successful make, every source file named .meta,
at the root or nested at any depth, is absent from the destination, and
every source file not named .meta is present with identical content. -/
theorem c1_make_filters_every_meta_file
    (st : Store) (name : String) (t : FsTree)
    (hfind : findTemplate st name = some t) (hnd : nodupTree t = true)
    (p : List String) (c : List Char)
    (hp : lookupPath t p = some (FsTree.file c)) :
    make_project (some st) name false = MakeOutcome.made (copy_template t) ∧
    lookupPath (copy_template t) p =
      (if p.getLast? = some metaName then none else some (FsTree.file c)) := by
  exact ⟨by simp [make_project, hfind], lookupPath_copy_template p t c hnd hp⟩

theorem c1_make_filters_every_meta_file_witness :
    make_project (some storeNested) ("gamma") false =
      MakeOutcome.made (copy_template tNested) ∧
    lookupPath (copy_template tNested) ["sub", metaName] =
      (if (["sub", metaName] : List String).getLast? = some metaName then none
        else some (FsTree.file ['x'])) :=
  c1_make_filters_every_meta_file storeNested ("gamma") tNested
    rfl rfl ["sub", metaName] ['x'] rfl

/-- C2, counterexample: on the sidecar line Tags:a,,b the read operation
returns the token list a, empty, b: the empty token between the two commas
is kept, so the returned tag sequence can contain an empty string,
contradicting the claim that empty tokens are discarded. -/
theorem c2_empty_token_counterexample :
    read_tags ['T', 'a', 'g', 's', ':', 'a', ',', ',', 'b', '\n'] =
      [['a'], [], ['b']] ∧
    [] ∈ read_tags ['T', 'a', 'g', 's', ':', 'a', ',', ',', 'b', '\n'] := by
  constructor <;> decide

/-- C2 (amended): for a sidecar line with the Tags marker, the remainder is
split on commas with getline semantics (the empty input yields no token and
a trailing empty segment after a final comma is dropped), all whitespace
characters are removed from each token, and every resulting token is kept,
including those left empty. -/
theorem c2_read_splits_strips_and_keeps_empties (r : List Char)
    (h : '\n' ∉ r) :
    read_tags (tagsLabel ++ r ++ ['\n']) =
      (cppSplit ',' r).map (fun t => t.filter (fun c => !(isspace c))) := by
  have h' : '\n' ∉ tagsLabel ++ r := by
    intro hm
    rcases List.mem_append.1 hm with h1 | h2
    · simp [tagsLabel] at h1
    · exact h h2
  rw [read_tags_single_line _ h', tagsOfLine_label]

theorem c2_read_splits_strips_and_keeps_empties_witness :
    read_tags (tagsLabel ++ ['a', ',', ' ', ',', 'b'] ++ ['\n']) =
      (cppSplit ',' ['a', ',', ' ', ',', 'b']).map
        (fun t => t.filter (fun c => !(isspace c))) :=
  c2_read_splits_strips_and_keeps_empties ['a', ',', ' ', ',', 'b'] (by decide)

/-- C3: the tag codec round trips: a list of non-empty, whitespace-free,
comma-free tags written by write_tags is read back verbatim by
read_tags. -/
theorem c3_tag_codec_round_trip (L : List (List Char))
    (h : ∀ t ∈ L, validTag t) : read_tags (write_tags L) = L :=
  read_write_tags L h

theorem c3_tag_codec_round_trip_witness :
    read_tags (write_tags [['w', 'e', 'b'], ['a', 'p', 'i']]) =
      [['w', 'e', 'b'], ['a', 'p', 'i']] :=
  c3_tag_codec_round_trip [['w', 'e', 'b'], ['a', 'p', 'i']]
    (by intro t ht; fin_cases ht <;> exact ⟨by decide, by decide⟩)

/-- C4: when the template root holds a regular file named .meta, a
successful make leaves no .meta at the destination root. -/
theorem c4_make_excludes_root_sidecar
    (st : Store) (name : String) (t : FsTree) (c : List Char)
    (hfind : findTemplate st name = some t) (hnd : nodupTree t = true)
    (hmeta : lookupPath t [metaName] = some (FsTree.file c)) :
    make_project (some st) name false = MakeOutcome.made (copy_template t) ∧
    lookupPath (copy_template t) [metaName] = none := by
  refine ⟨by simp [make_project, hfind], ?_⟩
  have hres := lookupPath_copy_template [metaName] t c hnd hmeta
  simpa using hres

theorem c4_make_excludes_root_sidecar_witness :
    make_project (some storeRootMeta) ("delta") false =
      MakeOutcome.made (copy_template tRootMeta) ∧
    lookupPath (copy_template tRootMeta) [metaName] = none :=
  c4_make_excludes_root_sidecar storeRootMeta ("delta") tRootMeta
    ['T', 'a', 'g', 's', ':', 'x', '\n'] rfl rfl rfl

/-- C5: saving under a name that already exists in the store reports the
collision and returns with the store unchanged, so the existing template
keeps its prior contents. -/
theorem c5_save_existing_name_no_mutation
    (st : Store) (name : String) (src : Option FsTree)
    (tags : List (List Char)) (h : hasTemplate st name = true) :
    save_template st name src tags = (st, SaveOutcome.alreadyExists) := by
  simp [save_template, h]

theorem c5_save_existing_name_no_mutation_witness :
    save_template storeNested ("gamma") (some emptyDir) [] =
      (storeNested, SaveOutcome.alreadyExists) :=
  c5_save_existing_name_no_mutation storeNested ("gamma")
    (some emptyDir) [] rfl

/-- C6: a pair is listed exactly when it is a directory entry of the store
whose tag list passes the filter: with an empty filter every template is
included, with a non-empty filter exactly those whose tag list meets the
filter list. -/
theorem c6_list_filter_disjunction (store : Store)
    (F : List (List Char)) (n : String) (ts : List (List Char)) :
    (n, ts) ∈ list_templates store F ↔
      ∃ cs, (n, FsTree.dir cs) ∈ store ∧ ts = template_tags cs ∧
        (F = [] ∨ ts.inter F ≠ []) := by
  have hshow : ∀ tags : List (List Char),
      (show_template F tags = true ↔ (F = [] ∨ tags.inter F ≠ [])) := by
    intro tags
    unfold show_template
    by_cases hF : F.isEmpty
    · simp [hF, List.isEmpty_iff.1 hF]
    · have hFne : F ≠ [] := by simpa [List.isEmpty_iff] using hF
      rw [if_neg hF]
      simp only [List.any_eq_true, hFne, false_or]
      constructor
      · rintro ⟨t, htF, htc⟩
        have htm : t ∈ tags := by simpa using htc
        intro hnil
        have : t ∈ tags.inter F := List.mem_inter_iff.2 ⟨htm, htF⟩
        rw [hnil] at this
        simp at this
      · intro hne
        obtain ⟨t, ht⟩ := List.exists_mem_of_ne_nil _ hne
        have ht' : t ∈ tags ∧ t ∈ F := List.mem_inter_iff.1 ht
        exact ⟨t, ht'.2, by simpa using ht'.1⟩
  unfold list_templates
  by_cases hst : store.isEmpty
  · rw [if_pos hst]
    have : store = [] := List.isEmpty_iff.1 hst
    subst this
    simp
  · rw [if_neg hst, List.mem_filterMap]
    constructor
    · rintro ⟨⟨m, tr⟩, hmem, heq⟩
      cases tr with
      | file c => simp at heq
      | dir cs =>
        simp only at heq
        split at heq
        · rename_i hshown
          obtain ⟨rfl, rfl⟩ := Prod.mk.injEq .. ▸ Option.some_inj.1 heq
          exact ⟨cs, hmem, rfl, (hshow _).1 hshown⟩
        · simp at heq
    · rintro ⟨cs, hmem, rfl, hcond⟩
      exact ⟨(n, FsTree.dir cs), hmem, by simp [(hshow _).2 hcond]⟩

/-- C7: adding the same valid tag list twice to a template whose sidecar
reads back as non-empty tokens gives the same sidecar as adding it once: a
tag already present is not appended again. -/
theorem c7_tag_add_idempotent (s : List Char) (ts : List (List Char))
    (hts : ∀ t ∈ ts, validTag t)
    (hwf : ∀ tok ∈ read_tags s, tok ≠ []) :
    add_tags_to_template (add_tags_to_template s ts) ts =
      add_tags_to_template s ts := by
  have hvalid1 : ∀ u ∈ add_new_tags (read_tags s) ts, validTag u := by
    intro u hu
    rcases mem_add_new_tags _ _ _ hu with h' | h'
    · exact validTag_of_read_mem s u hwf h'
    · exact hts u h'
  unfold add_tags_to_template
  rw [read_write_tags _ hvalid1,
    add_new_tags_eq_self _ _ (fun t ht => mem_add_new_tags_arg _ _ _ ht)]

theorem c7_tag_add_idempotent_witness :
    add_tags_to_template (add_tags_to_template sidecarA [['b']]) [['b']] =
      add_tags_to_template sidecarA [['b']] :=
  c7_tag_add_idempotent sidecarA [['b']]
    (by intro t ht; fin_cases ht; exact ⟨by decide, by decide⟩)
    (by decide)

/-- C8: removing tags none of which occur in the tag list of the sidecar
leaves the tag list read back from the template unchanged, order
included. -/
theorem c8_tag_remove_absent_noop (s : List Char) (ts : List (List Char))
    (habs : ∀ t ∈ ts, t ∉ read_tags s)
    (hwf : ∀ tok ∈ read_tags s, tok ≠ []) :
    read_tags (remove_tags_from_template s ts) = read_tags s := by
  unfold remove_tags_from_template
  rw [remove_tags_eq_self _ _ habs]
  exact read_write_tags _ (fun u hu => validTag_of_read_mem s u hwf hu)

theorem c8_tag_remove_absent_noop_witness :
    read_tags (remove_tags_from_template sidecarA [['z']]) =
      read_tags sidecarA :=
  c8_tag_remove_absent_noop sidecarA [['z']] (by decide) (by decide)

/-- C9: every tag add and tag remove rewrites the sidecar from scratch:
the new content is empty or exactly one Tags line ending in the only
newline, and the result depends only on what read_tags extracted, so any
other line previously in the sidecar is destroyed. -/
theorem c9_tag_mutation_rewrites_sidecar (s s2 : List Char)
    (ts : List (List Char))
    (hts : ∀ t ∈ ts, ∀ c ∈ t, isspace c = false)
    (hsame : read_tags s2 = read_tags s) :
    (add_tags_to_template s ts = [] ∨
      ∃ body, add_tags_to_template s ts = tagsLabel ++ body ++ ['\n'] ∧
        '\n' ∉ body) ∧
    (remove_tags_from_template s ts = [] ∨
      ∃ body, remove_tags_from_template s ts = tagsLabel ++ body ++ ['\n'] ∧
        '\n' ∉ body) ∧
    add_tags_to_template s2 ts = add_tags_to_template s ts ∧
    remove_tags_from_template s2 ts = remove_tags_from_template s ts := by
  refine ⟨?_, ?_, ?_, ?_⟩
  · apply write_tags_shape
    intro u hu
    rcases mem_add_new_tags _ _ _ hu with h' | h'
    · exact (mem_read_tags_clean s u h').1
    · exact hts u h'
  · apply write_tags_shape
    intro u hu
    exact (mem_read_tags_clean s u (remove_tags_subset _ _ _ hu)).1
  · unfold add_tags_to_template
    rw [hsame]
  · unfold remove_tags_from_template
    rw [hsame]

theorem c9_tag_mutation_rewrites_sidecar_witness :
    (add_tags_to_template sidecarJunkA [['b']] = [] ∨
      ∃ body, add_tags_to_template sidecarJunkA [['b']] =
        tagsLabel ++ body ++ ['\n'] ∧ '\n' ∉ body) ∧
    (remove_tags_from_template sidecarJunkA [['b']] = [] ∨
      ∃ body, remove_tags_from_template sidecarJunkA [['b']] =
        tagsLabel ++ body ++ ['\n'] ∧ '\n' ∉ body) ∧
    add_tags_to_template sidecarA [['b']] =
      add_tags_to_template sidecarJunkA [['b']] ∧
    remove_tags_from_template sidecarA [['b']] =
      remove_tags_from_template sidecarJunkA [['b']] :=
  c9_tag_mutation_rewrites_sidecar sidecarJunkA sidecarA [['b']]
    (by decide) (by decide)

/-- C10: save does not check the source before mutating: with a fresh name
and a missing source directory, the template directory is created first and
survives the copy failure as an empty template, and a subsequent save under
the same name hits the existence precondition. -/
theorem c10_save_creates_directory_before_copy
    (st : Store) (name : String)
    (tags tags2 : List (List Char)) (src2 : Option FsTree)
    (h : hasTemplate st name = false) :
    save_template st name none tags =
      (st ++ [(name, emptyDir)], SaveOutcome.copyFailed) ∧
    save_template (st ++ [(name, emptyDir)]) name src2 tags2 =
      (st ++ [(name, emptyDir)], SaveOutcome.alreadyExists) := by
  constructor
  · simp [save_template, h]
  · have h2 : hasTemplate (st ++ [(name, emptyDir)]) name = true := by
      rw [hasTemplate_append]
      simp [hasTemplate]
    simp [save_template, h2]

theorem c10_save_creates_directory_before_copy_witness :
    save_template [] ("beta") none [] =
      ([] ++ [(("beta" : String), emptyDir)], SaveOutcome.copyFailed) ∧
    save_template ([] ++ [(("beta" : String), emptyDir)]) ("beta")
      (some emptyDir) [] =
      ([] ++ [(("beta" : String), emptyDir)], SaveOutcome.alreadyExists) :=
  c10_save_creates_directory_before_copy [] ("beta") [] []
    (some emptyDir) rfl

end Tmpl
